import Mathlib

/-!
# Verification of the Fee-Receipt validator core (src/App.tsx)

A shallow embedding of the batch record-validation pipeline:
header normalization, CSV parsing and schema validation, the sequential
per-record orchestration loop with its critical short-circuit rule, and
the result tally used for the summary chart.

Strings are modelled as `String`/`List Char`; the JavaScript string
operations used by the source (`trim`, `toLowerCase`, `split`,
`replace` with the two regexes, `includes`) are embedded as executable
functions below, keeping JS semantics (in particular, `.` in a regex
does not match line terminators, and `trim` strips Unicode whitespace).
-/

namespace FeeReceipt

/-- JS whitespace (the class stripped by `String.prototype.trim`):
tab, LF, VT, FF, CR, space, NBSP, Ogham space, the U+2000 block,
LS, PS, NNBSP, MMSP, ideographic space, BOM. -/
def isWsJS (c : Char) : Bool :=
  (c.toNat = 9) || (c.toNat = 10) || (c.toNat = 11) || (c.toNat = 12) ||
  (c.toNat = 13) || (c.toNat = 32) || (c.toNat = 160) || (c.toNat = 5760) ||
  (8192 ≤ c.toNat && c.toNat ≤ 8202) ||
  (c.toNat = 8232) || (c.toNat = 8233) || (c.toNat = 8239) ||
  (c.toNat = 8287) || (c.toNat = 12288) || (c.toNat = 65279)

/-- JS regex line terminators, the characters `.` does not match:
LF, CR, LS (U+2028), PS (U+2029). -/
def isTermJS (c : Char) : Bool :=
  (c.toNat = 10) || (c.toNat = 13) || (c.toNat = 8232) || (c.toNat = 8233)

/-- The character class `[a-zA-Z0-9]` of the header-normalizer regex. -/
def isAlnumA (c : Char) : Bool :=
  (97 ≤ c.toNat && c.toNat ≤ 122) || (65 ≤ c.toNat && c.toNat ≤ 90) ||
  (48 ≤ c.toNat && c.toNat ≤ 57)

/-- `String.prototype.trim`, on character lists: drop whitespace from
both ends. -/
def trimList (l : List Char) : List Char :=
  ((l.dropWhile isWsJS).reverse.dropWhile isWsJS).reverse

/-- `String.prototype.toLowerCase` (ASCII range, as exercised by the
program), on character lists. -/
def lowerList (l : List Char) : List Char :=
  l.map Char.toLower

/-- Last non-line-terminator element of a list, together with the
(all-terminator) tail that follows it.  This is what the backtracking
of `[^a-zA-Z0-9]+(.)` captures when a separator run sits at the end of
the subject string: the `+` gives characters back until `(.)` (which
cannot match a line terminator) succeeds. -/
def lastNonTerm : List Char → Option (List Char)
  | [] => none
  | c :: cs =>
    match lastNonTerm cs with
    | some out => some out
    | none => if isTermJS c then none else some (c :: cs)

/-- Output of the camel-case replacement for a separator run that
reaches the end of the string: the regex matches all but the last
non-terminator of the run and rewrites it to `toUpper` of that
character (a no-op on non-letters), leaving any terminator tail; if
the run past its first character is all terminators, no match happens
at all and the run survives unchanged. -/
def endRun (run : List Char) : List Char :=
  match run with
  | [] => []
  | r :: rs =>
    match lastNonTerm rs with
    | some out => out
    | none => r :: rs

/-- The global replace `replace(/[^a-zA-Z0-9]+(.)/g, (_, chr) =>
chr.toUpperCase())` of `normalizeHeader`, as a left-to-right scan.
`acc` holds the separator run currently being read (reversed). -/
def camelA (acc : List Char) : List Char → List Char
  | [] => endRun acc.reverse
  | c :: cs =>
    if isAlnumA c then
      if acc.isEmpty then c :: camelA [] cs
      else Char.toUpper c :: camelA [] cs
    else camelA (c :: acc) cs

/-- `normalizeHeader` from src/App.tsx: trim, lower-case, then replace
every run of non-alphanumerics followed by a character with the
upper-cased form of that character. -/
def normalizeHeader (h : String) : String :=
  String.mk (camelA [] (lowerList (trimList h.data)))

/-! ## CSV parsing and schema validation (`parseAndValidateCsv`) -/

/-- A parsed row: the JS object built by
`headers.reduce((obj, header, index) => ..., {})`, modelled as an
insertion-ordered association list with unique keys. -/
abbrev CsvRow := List (String × String)

/-- `split` on a single literal character (used for `split('\n')` on
the whole text and `split(',')` on the header line).  Like JS `split`,
an empty input yields one empty piece. -/
def splitOnChar (sep : Char) : List Char → List (List Char)
  | [] => [[]]
  | c :: cs =>
    if c = sep then [] :: splitOnChar sep cs
    else (splitOnChar sep cs).modifyHead (c :: ·)

/-- The data-line field splitter
`split(/,(?=(?:(?:[^"]*"){2})*[^"]*$)/)`: a comma is a separator
exactly when an even number of quote characters follows it on the
line. -/
def splitFields : List Char → List (List Char)
  | [] => [[]]
  | c :: cs =>
    if c = ',' && (cs.count '"') % 2 = 0 then [] :: splitFields cs
    else (splitFields cs).modifyHead (c :: ·)

/-- `replace(/"/g, '')`: remove every quote character. -/
def removeQuotes (l : List Char) : List Char :=
  l.filter (fun c => c ≠ '"')

/-- Normalized headers of the first line:
`lines[0].split(',').map(h => normalizeHeader(h.replace(/"/g, '')))`. -/
def parseHeaders (l0 : List Char) : List String :=
  (splitOnChar ',' l0).map (fun h => normalizeHeader (String.mk (removeQuotes h)))

/-- Value of field `i`: `values[index]?.trim().replace(/"/g, '') || ''`
(an out-of-range index yields the empty string). -/
def fieldValue (values : List (List Char)) (i : Nat) : String :=
  match values[i]? with
  | some v => String.mk (removeQuotes (trimList v))
  | none => ""

/-- JS object property assignment `obj[k] = v`: update in place if the
key exists, else append. -/
def objSet (r : CsvRow) (k v : String) : CsvRow :=
  if r.any (fun p => p.1 == k) then
    r.map (fun p => if p.1 == k then (k, v) else p)
  else r ++ [(k, v)]

/-- The body of `headers.reduce(...)`: assign one field per header,
indices counting up from `i`. -/
def buildRecordAux (values : List (List Char)) : Nat → List String → CsvRow → CsvRow
  | _, [], obj => obj
  | i, h :: hs, obj => buildRecordAux values (i + 1) hs (objSet obj h (fieldValue values i))

/-- One parsed row: headers zipped positionally with the cleaned field
values, starting from the empty object. -/
def buildRecord (headers : List String) (values : List (List Char)) : CsvRow :=
  buildRecordAux values 0 headers []

/-- `hasOwnProperty`. -/
def hasKey (r : CsvRow) (k : String) : Bool :=
  r.any (fun p => p.1 == k)

/-- Property lookup on a parsed row. -/
def lookupObj (r : CsvRow) (k : String) : Option String :=
  (r.find? (fun p => p.1 == k)).map (·.2)

/-- The three fatal input errors reported by `parseAndValidateCsv`
via `setError`. -/
inductive ParseError where
  | emptyInput : ParseError
  | emptyResult : ParseError
  | missingColumns : List String → ParseError
deriving DecidableEq

/-- The user-facing message of each fatal input error. -/
def ParseError.message : ParseError → String
  | .emptyInput => "The fetched data is empty or invalid. Please check the Google Sheet."
  | .emptyResult => "The file is empty or could not be parsed correctly."
  | .missingColumns cols =>
    "The sheet is missing required columns: " ++ String.intercalate ", " cols ++
      ". Please correct the sheet and re-fetch."

instance {ε α : Type} [DecidableEq ε] [DecidableEq α] : DecidableEq (Except ε α) :=
  fun x y =>
    match x, y with
    | .ok a, .ok b =>
      if h : a = b then .isTrue (by rw [h]) else .isFalse (fun hc => h (Except.ok.inj hc))
    | .error e, .error f =>
      if h : e = f then .isTrue (by rw [h]) else .isFalse (fun hc => h (Except.error.inj hc))
    | .ok _, .error _ => .isFalse (fun hc => Except.noConfusion hc)
    | .error _, .ok _ => .isFalse (fun hc => Except.noConfusion hc)

/-- The parsing phase of `parseAndValidateCsv` (lines 29–51): trim and
split the text into lines, require at least two lines, normalize the
header line, and build one record per data line. -/
def parseRecords (csvText : String) : Except ParseError (List CsvRow) :=
  match splitOnChar '\n' (trimList csvText.data) with
  | l0 :: l1 :: rest =>
    match (l1 :: rest).map (fun line => buildRecord (parseHeaders l0) (splitFields line)) with
    | [] => .error .emptyResult
    | first :: more => .ok (first :: more)
  | _ => .error .emptyInput

/-- The canonical keys required of the first record. -/
def requiredColumns : List String :=
  ["name", "amount", "utr", "paymentDate", "campusName", "paymentScreenshotUrl"]

/-- `parseAndValidateCsv` (lines 29–63): parse, then check the first
record for each required key by key existence, reporting every missing
one; on success the full record list is accepted. -/
def parseAndValidateCsv (csvText : String) : Except ParseError (List CsvRow) :=
  match parseRecords csvText with
  | .error e => .error e
  | .ok [] => .error .emptyResult
  | .ok (first :: more) =>
    if (requiredColumns.filter (fun col => !(hasKey first col))).isEmpty then .ok (first :: more)
    else .error (.missingColumns (requiredColumns.filter (fun col => !(hasKey first col))))

/-! ## Record processing and the orchestrator loop (`handleProcessData`) -/

/-- `ExtractedInformation` from src/types.ts (the `Proof_Type` union of
string literals is carried as a string). -/
structure ExtractedInformation where
  Student_Name : String
  Amount : String
  Campus : String
  Payment_Date : String
  Transaction_Details : String
  Reference_Number : String
  Proof_Type : String
  Logo_Present : Bool
  Stamp_Present : Bool
deriving DecidableEq

/-- `ValidationResponse` from src/types.ts; `Validation_Status` is a
union of string literals, carried as a string. -/
structure ValidationResponse where
  Extracted_Information : ExtractedInformation
  Validation_Status : String
  Observations : String
deriving DecidableEq

/-- `ProcessingResult` from src/types.ts: the outcome of one record. -/
structure ProcessingResult where
  originalData : CsvRow
  validation : Option ValidationResponse
  error : Option String
  timestamp : String
deriving DecidableEq

/-- The substring the critical-error check looks for in a failure
message: `errorMessage.includes('Invalid API Key')`. -/
def critKey : String := "Invalid API Key"

/-- JS `String.prototype.includes`, on character lists. -/
def includesStr (pat : List Char) : List Char → Bool
  | [] => pat.isEmpty
  | c :: cs => pat.isPrefixOf (c :: cs) || includesStr pat cs

/-- The try-block of one loop iteration, abstracting the external
collaborators (screenshot fetch and `validateReceipt`) as an oracle
`proc` from record index and row to verdict or failure message, and
the wall clock as `ts`.  Success records the verdict; failure records
the message. -/
def processRecordOutcome (proc : Nat → CsvRow → Except String ValidationResponse)
    (ts : Nat → String) (i : Nat) (row : CsvRow) : ProcessingResult :=
  match proc i row with
  | .ok v => ⟨row, some v, none, ts i⟩
  | .error e => ⟨row, none, some e, ts i⟩

/-- The orchestrator loop of `handleProcessData` (lines 121–167) from
index `i` on: process records in order, isolating failures, except
that a failure at index 0 whose message contains `critKey` replaces
the outcome list with a single annotated outcome and stops (second
component `true` = run aborted). -/
def runAux (proc : Nat → CsvRow → Except String ValidationResponse)
    (ts : Nat → String) : Nat → List CsvRow → List ProcessingResult × Bool
  | _, [] => ([], false)
  | i, row :: rest =>
    match proc i row with
    | .ok v =>
      let r := runAux proc ts (i + 1) rest
      (⟨row, some v, none, ts i⟩ :: r.1, r.2)
    | .error e =>
      if i == 0 && includesStr critKey.data e.data then
        ([⟨row, none, some ("Processing stopped due to critical error: " ++ e), ts i⟩], true)
      else
        let r := runAux proc ts (i + 1) rest
        (⟨row, none, some e, ts i⟩ :: r.1, r.2)

/-- `handleProcessData` on a fetched record list: run the loop from
index 0 (an empty list is rejected up front and produces nothing). -/
def runPipeline (proc : Nat → CsvRow → Except String ValidationResponse)
    (ts : Nat → String) (rows : List CsvRow) : List ProcessingResult × Bool :=
  if rows.isEmpty then ([], false) else runAux proc ts 0 rows

/-! ## Result tally (`chartData`) -/

/-- One slice of the summary pie chart. -/
structure ChartItem where
  name : String
  value : Nat
  color : String
deriving DecidableEq

/-- The four accumulator counts of the tally. -/
structure StatusCounts where
  validated : Nat
  mismatch : Nat
  review : Nat
  error : Nat
deriving DecidableEq

/-- JS truthiness of `res.error` (a string or undefined): defined and
non-empty. -/
def errTruthy (res : ProcessingResult) : Bool :=
  match res.error with
  | some s => !(s == "")
  | none => false

/-- The reduce body of `chartData` (lines 230–240), with the switch on
`Validation_Status` written as an if-chain over the literal strings of
src/App.tsx — including the third case's corrupted en-dash bytes
(U+00E2, U+20AC, U+201C) exactly as they appear in the source. -/
def tallyStep (acc : StatusCounts) (res : ProcessingResult) : StatusCounts :=
  if errTruthy res then ⟨acc.validated, acc.mismatch, acc.review, acc.error + 1⟩
  else
    match res.validation with
    | some v =>
      if v.Validation_Status == "Receipt Validated" then
        ⟨acc.validated + 1, acc.mismatch, acc.review, acc.error⟩
      else if v.Validation_Status == "Mismatch Found" then
        ⟨acc.validated, acc.mismatch + 1, acc.review, acc.error⟩
      else if v.Validation_Status == "Not Readable â€“ Human Review Required" then
        ⟨acc.validated, acc.mismatch, acc.review + 1, acc.error⟩
      else acc
    | none => acc

/-- `chartData` (lines 227–249): tally the outcome list and project it
to chart slices, dropping zero-count buckets. -/
def chartData (results : List ProcessingResult) : List ChartItem :=
  if results.isEmpty then []
  else
    let counts := results.foldl tallyStep ⟨0, 0, 0, 0⟩
    ([⟨"Validated", counts.validated, "#22c55e"⟩,
      ⟨"Mismatch", counts.mismatch, "#ef4444"⟩,
      ⟨"Needs Review", counts.review, "#f59e0b"⟩,
      ⟨"Error", counts.error, "#6b7280"⟩] : List ChartItem).filter
      (fun item => 0 < item.value)

/-- The `Validation_Status` literal of the `'Not Readable'` verdict as
declared in src/types.ts (with a real en-dash, U+2013). -/
def reviewStatusTyped : String := "Not Readable – Human Review Required"

/-! ## Specification-side auxiliary definitions -/

/-- `toLowerCase` on strings, used to state what a second application
of `normalizeHeader` actually does. -/
def lowerStr (s : String) : String :=
  String.mk (lowerList s.data)

/-- The value the JS object holds for key `k` after the reduce has
assigned headers `hs` (field indices counting from `i`): the write at
the last occurrence of `k` wins. -/
def lastWrite (values : List (List Char)) : Nat → List String → String → Option String
  | _, [], _ => none
  | i, h :: hs, k =>
    match lastWrite values (i + 1) hs k with
    | some v => some v
    | none => if h = k then some (fieldValue values i) else none

/-- Strings on which the camel-case replacement finds no match: every
character is alphanumeric until (possibly) one trailing separator run
whose characters past the first are all line terminators. -/
inductive NoSep : List Char → Prop
  | nil : NoSep []
  | alnum {c : Char} {cs : List Char} : isAlnumA c = true → NoSep cs → NoSep (c :: cs)
  | sep {c : Char} {cs : List Char} : isAlnumA c = false →
      (∀ d ∈ cs, isTermJS d = true) → NoSep (c :: cs)

/-! ## Concrete fixtures for witnesses and counterexamples -/

/-- A concrete `ExtractedInformation`. -/
def sampleEI : ExtractedInformation :=
  ⟨"Jane Doe", "100", "Main", "2024-01-01", "upi 123", "r1", "UPI", true, false⟩

/-- A concrete successful verdict. -/
def okVR : ValidationResponse := ⟨sampleEI, "Receipt Validated", "all good"⟩

/-- A concrete 'Not Readable' verdict carrying the status string
exactly as declared in src/types.ts. -/
def reviewVR : ValidationResponse := ⟨sampleEI, reviewStatusTyped, "image unreadable"⟩

/-- An error-free outcome whose verdict is the typed 'Not Readable'
status. -/
def reviewOutcome : ProcessingResult :=
  ⟨[("name", "a")], some reviewVR, none, "2024-01-01 00:00:00"⟩

/-- Three concrete rows. -/
def rowA : CsvRow := [("name", "a"), ("paymentScreenshotUrl", "urlA")]

/-- Second concrete row. -/
def rowB : CsvRow := [("name", "b"), ("paymentScreenshotUrl", "urlB")]

/-- Third concrete row. -/
def rowC : CsvRow := [("name", "c"), ("paymentScreenshotUrl", "urlC")]

/-- An oracle that fails with a credential error on the first record
and succeeds elsewhere. -/
def procCrit : Nat → CsvRow → Except String ValidationResponse :=
  fun i _ => if i = 0 then .error "Invalid API Key provided" else .ok okVR

/-- An oracle that fails with a credential error on record 1 only. -/
def procLater : Nat → CsvRow → Except String ValidationResponse :=
  fun i _ => if i = 1 then .error "Invalid API Key provided" else .ok okVR

/-- A fixed clock. -/
def tsFix : Nat → String := fun _ => "2024-01-01 00:00:00"

/-- The outcome the loop records for row 0 under `procLater`. -/
def resW : ProcessingResult := ⟨rowA, some okVR, none, "2024-01-01 00:00:00"⟩

/-! ## Character-class lemmas -/

theorem toNat_ofNat_valid (n : Nat) (h : n.isValidChar) : (Char.ofNat n).toNat = n := by
  unfold Char.ofNat
  rw [dif_pos h]
  rfl

theorem toNat_toLower (c : Char) :
    (Char.toLower c).toNat = if c.toNat ≥ 65 ∧ c.toNat ≤ 90 then c.toNat + 32 else c.toNat := by
  show (if c.toNat ≥ 65 ∧ c.toNat ≤ 90 then Char.ofNat (c.toNat + 32) else c).toNat = _
  split_ifs with h
  · exact toNat_ofNat_valid _ (Or.inl (by omega))
  · rfl

theorem toNat_toUpper (c : Char) :
    (Char.toUpper c).toNat = if c.toNat ≥ 97 ∧ c.toNat ≤ 122 then c.toNat - 32 else c.toNat := by
  show (if c.toNat ≥ 97 ∧ c.toNat ≤ 122 then Char.ofNat (c.toNat - 32) else c).toNat = _
  split_ifs with h
  · exact toNat_ofNat_valid _ (Or.inl (by omega))
  · rfl

theorem isAlnumA_toLower (c : Char) : isAlnumA (Char.toLower c) = isAlnumA c := by
  rw [Bool.eq_iff_iff]
  simp only [isAlnumA, Bool.or_eq_true, Bool.and_eq_true, decide_eq_true_eq, toNat_toLower]
  split_ifs with h <;> omega

theorem isAlnumA_toUpper (c : Char) : isAlnumA (Char.toUpper c) = isAlnumA c := by
  rw [Bool.eq_iff_iff]
  simp only [isAlnumA, Bool.or_eq_true, Bool.and_eq_true, decide_eq_true_eq, toNat_toUpper]
  split_ifs with h <;> omega

theorem isWsJS_toLower (c : Char) : isWsJS (Char.toLower c) = isWsJS c := by
  rw [Bool.eq_iff_iff]
  simp only [isWsJS, Bool.or_eq_true, Bool.and_eq_true, decide_eq_true_eq, toNat_toLower]
  split_ifs with h <;> omega

theorem isTermJS_toLower (c : Char) : isTermJS (Char.toLower c) = isTermJS c := by
  rw [Bool.eq_iff_iff]
  simp only [isTermJS, Bool.or_eq_true, Bool.and_eq_true, decide_eq_true_eq, toNat_toLower]
  split_ifs with h <;> omega

theorem not_ws_of_alnum {c : Char} (h : isAlnumA c = true) : isWsJS c = false := by
  rw [← Bool.not_eq_true]
  simp only [isAlnumA, isWsJS, Bool.or_eq_true, Bool.and_eq_true, decide_eq_true_eq] at h ⊢
  omega

theorem not_alnum_of_term {c : Char} (h : isTermJS c = true) : isAlnumA c = false := by
  rw [← Bool.not_eq_true]
  simp only [isTermJS, isAlnumA, Bool.or_eq_true, Bool.and_eq_true, decide_eq_true_eq] at h ⊢
  omega

theorem ws_of_term {c : Char} (h : isTermJS c = true) : isWsJS c = true := by
  simp only [isTermJS, isWsJS, Bool.or_eq_true, Bool.and_eq_true, decide_eq_true_eq] at h ⊢
  omega

theorem not_term_of_not_ws {c : Char} (h : isWsJS c = false) : isTermJS c = false := by
  rw [← Bool.not_eq_true] at h ⊢
  exact fun ht => h (ws_of_term ht)

/-! ## Trim lemmas -/

theorem head_dropWhile_not {α : Type} (p : α → Bool) :
    ∀ {l : List α} {c : α}, (l.dropWhile p).head? = some c → p c = false := by
  intro l
  induction l with
  | nil => intro c h; cases h
  | cons a l ih =>
    intro c h
    by_cases hp : p a
    · rw [List.dropWhile_cons_of_pos hp] at h
      exact ih h
    · rw [List.dropWhile_cons_of_neg hp] at h
      cases h
      exact Bool.of_not_eq_true hp

theorem dropWhile_eq_self {α : Type} (p : α → Bool) {l : List α}
    (h : ∀ c, l.head? = some c → p c = false) : l.dropWhile p = l := by
  cases l with
  | nil => rfl
  | cons a l =>
    have : p a = false := h a rfl
    rw [List.dropWhile_cons_of_neg (by simp [this])]

theorem trimList_head_not_ws : ∀ {l : List Char} {c : Char},
    (trimList l).head? = some c → isWsJS c = false := by
  intro l c h
  unfold trimList at h
  rw [List.head?_reverse] at h
  rcases hk : (l.dropWhile isWsJS).reverse.dropWhile isWsJS with _ | ⟨x, k⟩
  · rw [hk] at h; cases h
  · rw [hk] at h
    have hsuf : (x :: k) <:+ (l.dropWhile isWsJS).reverse := by
      rw [← hk]; exact List.dropWhile_suffix isWsJS
    rcases hsuf with ⟨t, ht⟩
    have : (l.dropWhile isWsJS).reverse.getLast? = some c := by
      rw [← ht, List.getLast?_append_of_ne_nil t (by simp), ← h]
    rw [List.getLast?_reverse] at this
    exact head_dropWhile_not isWsJS this

theorem trimList_getLast_not_ws : ∀ {l : List Char} {c : Char},
    (trimList l).getLast? = some c → isWsJS c = false := by
  intro l c h
  unfold trimList at h
  rw [List.getLast?_reverse] at h
  exact head_dropWhile_not isWsJS h

theorem trimList_eq_self {l : List Char}
    (h1 : ∀ c, l.head? = some c → isWsJS c = false)
    (h2 : ∀ c, l.getLast? = some c → isWsJS c = false) : trimList l = l := by
  unfold trimList
  rw [dropWhile_eq_self _ h1]
  rw [dropWhile_eq_self _ (fun c hc => h2 c (by rwa [List.head?_reverse] at hc))]
  exact List.reverse_reverse l

theorem trimList_nil_of_all_ws {l : List Char} (h : ∀ c ∈ l, isWsJS c = true) :
    trimList l = [] := by
  unfold trimList
  rw [List.dropWhile_eq_nil_iff.mpr h]
  rfl

theorem trimList_append_ws {l : List Char} {a : Char} (ha : isWsJS a = true) :
    trimList (l ++ [a]) = trimList l := by
  by_cases hall : ∀ c ∈ l, isWsJS c = true
  · rw [trimList_nil_of_all_ws hall, trimList_nil_of_all_ws]
    intro c hc
    rcases List.mem_append.mp hc with hm | hm
    · exact hall c hm
    · rw [List.mem_singleton.mp hm]; exact ha
  · have hne : ((l.dropWhile isWsJS).isEmpty) = false := by
      rcases hd : l.dropWhile isWsJS with _ | ⟨x, k⟩
      · exact absurd (List.dropWhile_eq_nil_iff.mp hd) hall
      · rfl
    unfold trimList
    rw [List.dropWhile_append, hne]
    simp only [Bool.false_eq_true, if_false, List.reverse_append, List.reverse_singleton,
      List.singleton_append, List.dropWhile_cons_of_pos ha]

/-! ## Camel-case scan lemmas -/

theorem lastNonTerm_eq_none {l : List Char} (h : ∀ d ∈ l, isTermJS d = true) :
    lastNonTerm l = none := by
  induction l with
  | nil => rfl
  | cons c cs ih =>
    simp only [lastNonTerm, ih (fun d hd => h d (List.mem_cons_of_mem c hd))]
    rw [if_pos (h c (List.mem_cons_self c cs))]

theorem allTerm_of_lastNonTerm_none : ∀ {l : List Char}, lastNonTerm l = none →
    ∀ d ∈ l, isTermJS d = true := by
  intro l
  induction l with
  | nil => intro _ d hd; cases hd
  | cons c cs ih =>
    intro h d hd
    rcases hcs : lastNonTerm cs with _ | out
    · simp only [lastNonTerm, hcs] at h
      by_cases ht : isTermJS c = true
      · rcases List.mem_cons.mp hd with rfl | hm
        · exact ht
        · exact ih hcs d hm
      · rw [if_neg (by simpa using ht)] at h
        cases h
    · simp only [lastNonTerm, hcs] at h
      cases h

theorem lastNonTerm_some_spec : ∀ {l : List Char} {out : List Char},
    lastNonTerm l = some out →
    ∃ c cs, out = c :: cs ∧ isTermJS c = false ∧ (∀ d ∈ cs, isTermJS d = true) ∧ out <:+ l := by
  intro l
  induction l with
  | nil => intro out h; cases h
  | cons a l ih =>
    intro out h
    rcases h' : lastNonTerm l with _ | out'
    · simp only [lastNonTerm, h'] at h
      by_cases ht : isTermJS a = true
      · rw [if_pos ht] at h; cases h
      · rw [if_neg (by simpa using ht)] at h
        cases h
        exact ⟨a, l, rfl, Bool.eq_false_iff.mpr (by simpa using ht),
          allTerm_of_lastNonTerm_none h', List.suffix_refl _⟩
    · simp only [lastNonTerm, h'] at h
      cases h
      obtain ⟨c, cs, rfl, hc, hcs, hsuf⟩ := ih h'
      exact ⟨c, cs, rfl, hc, hcs, hsuf.trans (List.suffix_cons a l)⟩

theorem lastNonTerm_of_getLast : ∀ {l : List Char} {c : Char},
    l.getLast? = some c → isTermJS c = false → lastNonTerm l = some [c] := by
  intro l
  induction l with
  | nil => intro c hl _; cases hl
  | cons a l ih =>
    intro c hl hc
    cases l with
    | nil =>
      rw [List.getLast?_singleton] at hl
      cases hl
      simp only [lastNonTerm]
      rw [if_neg (by simp [hc])]
    | cons b l' =>
      rw [List.getLast?_cons_cons] at hl
      have heq : lastNonTerm (a :: b :: l') =
          match lastNonTerm (b :: l') with
          | some out => some out
          | none => if isTermJS a = true then none else some (a :: b :: l') := rfl
      rw [heq, ih hl hc]

theorem endRun_getLast {r : Char} {rs : List Char} :
    (endRun (r :: rs)).getLast? = (r :: rs).getLast? := by
  rcases h : lastNonTerm rs with _ | out
  · simp only [endRun, h]
  · simp only [endRun, h]
    obtain ⟨c, cs, rfl, _, _, hsuf⟩ := lastNonTerm_some_spec h
    rcases hsuf with ⟨t, ht⟩
    have hrs : rs ≠ [] := by
      intro hnil
      rw [hnil] at ht
      exact absurd (List.append_eq_nil.mp ht).2 (by simp)
    rcases rs with _ | ⟨b, l'⟩
    · exact absurd rfl hrs
    · rw [List.getLast?_cons_cons, ← ht, List.getLast?_append_of_ne_nil t (by simp)]

theorem endRun_head_not_ws {r : Char} {rs : List Char} {c : Char}
    (hr : isWsJS r = false)
    (hlast : ∀ c₁, (r :: rs).getLast? = some c₁ → isWsJS c₁ = false)
    (h : (endRun (r :: rs)).head? = some c) : isWsJS c = false := by
  rcases rs with _ | ⟨b, l'⟩
  · simp only [endRun, lastNonTerm] at h
    cases h
    exact hr
  · have hex : ∃ g, (b :: l').getLast? = some g := by
      rcases hgl : (b :: l').getLast? with _ | g
      · rw [List.getLast?_eq_none_iff] at hgl
        cases hgl
      · exact ⟨g, rfl⟩
    obtain ⟨g, hg⟩ := hex
    have hgws : isWsJS g = false := hlast g (by rw [List.getLast?_cons_cons]; exact hg)
    have hgterm : isTermJS g = false := not_term_of_not_ws hgws
    simp only [endRun, lastNonTerm_of_getLast hg hgterm] at h
    cases h
    exact hgws

theorem endRun_noSep {run : List Char} (h : ∀ a ∈ run, isAlnumA a = false) :
    NoSep (lowerList (endRun run)) := by
  rcases run with _ | ⟨r, rs⟩
  · exact NoSep.nil
  · rcases hlt : lastNonTerm rs with _ | out
    · simp only [endRun, hlt, lowerList, List.map_cons]
      refine NoSep.sep ?_ ?_
      · rw [isAlnumA_toLower]
        exact h r (List.mem_cons_self r rs)
      · intro d hd
        obtain ⟨d₀, hd₀, rfl⟩ := List.mem_map.mp hd
        rw [isTermJS_toLower]
        exact allTerm_of_lastNonTerm_none hlt d₀ hd₀
    · obtain ⟨c, cs, rfl, _, hcs, hsuf⟩ := lastNonTerm_some_spec hlt
      simp only [endRun, hlt, lowerList, List.map_cons]
      refine NoSep.sep ?_ ?_
      · rw [isAlnumA_toLower]
        exact h c (List.mem_cons_of_mem r (hsuf.subset (List.mem_cons_self c cs)))
      · intro d hd
        obtain ⟨d₀, hd₀, rfl⟩ := List.mem_map.mp hd
        rw [isTermJS_toLower]
        exact hcs d₀ hd₀

theorem camelA_all_nonalnum : ∀ {l : List Char} (acc : List Char),
    (∀ d ∈ l, isAlnumA d = false) → camelA acc l = endRun (acc.reverse ++ l) := by
  intro l
  induction l with
  | nil => intro acc _; simp [camelA]
  | cons c cs ih =>
    intro acc h
    have hc : isAlnumA c = false := h c (List.mem_cons_self c cs)
    simp only [camelA, hc, Bool.false_eq_true, if_false]
    rw [ih (c :: acc) (fun d hd => h d (List.mem_cons_of_mem c hd))]
    simp [List.append_assoc]

theorem camelA_fixed : ∀ {w : List Char}, NoSep w → camelA [] w = w := by
  intro w h
  induction h with
  | nil => rfl
  | alnum hc _ ih => simp [camelA, hc, ih]
  | sep hc hterm =>
    simp only [camelA, hc, Bool.false_eq_true, if_false]
    rw [camelA_all_nonalnum _ (fun d hd => not_alnum_of_term (hterm d hd))]
    simp only [List.reverse_cons, List.reverse_nil, List.nil_append, List.singleton_append,
      endRun, lastNonTerm_eq_none hterm]

theorem camelA_noSep : ∀ (l : List Char) (acc : List Char),
    (∀ a ∈ acc, isAlnumA a = false) → NoSep (lowerList (camelA acc l)) := by
  intro l
  induction l with
  | nil =>
    intro acc h
    exact endRun_noSep (fun a ha => h a (List.mem_reverse.mp ha))
  | cons c cs ih =>
    intro acc h
    by_cases hc : isAlnumA c = true
    · simp only [camelA, hc, if_true]
      by_cases hacc : acc.isEmpty
      · simp only [hacc, if_true, lowerList, List.map_cons]
        exact NoSep.alnum (by rw [isAlnumA_toLower]; exact hc) (ih [] (by intro a ha; cases ha))
      · simp only [hacc, Bool.false_eq_true, if_false, lowerList, List.map_cons]
        refine NoSep.alnum ?_ (ih [] (by intro a ha; cases ha))
        rw [isAlnumA_toLower, isAlnumA_toUpper]
        exact hc
    · simp only [camelA, hc, Bool.false_eq_true, if_false]
      refine ih (c :: acc) ?_
      intro a ha
      rcases List.mem_cons.mp ha with rfl | hm
      · simpa using hc
      · exact h a hm

theorem camelA_getLast : ∀ (l : List Char) (acc : List Char) (c : Char),
    (camelA acc l).getLast? = some c →
    isAlnumA c = true ∨ (l = [] ∧ acc.head? = some c) ∨ l.getLast? = some c := by
  intro l
  induction l with
  | nil =>
    intro acc c h
    rcases hrev : acc.reverse with _ | ⟨r, rs⟩
    · rw [show camelA acc [] = endRun acc.reverse from rfl, hrev] at h
      cases h
    · rw [show camelA acc [] = endRun acc.reverse from rfl, hrev, endRun_getLast, ← hrev,
        List.getLast?_reverse] at h
      exact Or.inr (Or.inl ⟨rfl, h⟩)
  | cons a l ih =>
    intro acc c h
    by_cases ha : isAlnumA a = true
    · have hl0 : camelA acc (a :: l) =
          (if acc.isEmpty then a else Char.toUpper a) :: camelA [] l := by
        simp only [camelA, ha, if_true]
        split_ifs <;> rfl
      rw [hl0] at h
      rcases hr : camelA [] l with _ | ⟨y, ys⟩
      · rw [hr, List.getLast?_singleton] at h
        cases h
        refine Or.inl ?_
        split_ifs with hacc
        · exact ha
        · rw [isAlnumA_toUpper]; exact ha
      · rw [hr, List.getLast?_cons_cons] at h
        rw [← hr] at h
        rcases ih [] c h with h1 | ⟨rfl, h2⟩ | h3
        · exact Or.inl h1
        · cases h2
        · refine Or.inr (Or.inr ?_)
          have hlne : l ≠ [] := by
            intro hnil
            rw [hnil] at hr
            cases hr
          rcases l with _ | ⟨b, l'⟩
          · exact absurd rfl hlne
          · rw [List.getLast?_cons_cons]
            exact h3
    · have hl0 : camelA acc (a :: l) = camelA (a :: acc) l := by
        simp only [camelA, ha, Bool.false_eq_true, if_false]
      rw [hl0] at h
      rcases ih (a :: acc) c h with h1 | ⟨rfl, h2⟩ | h3
      · exact Or.inl h1
      · cases h2
        exact Or.inr (Or.inr rfl)
      · refine Or.inr (Or.inr ?_)
        have hlne : l ≠ [] := by
          intro hnil
          rw [hnil] at h3
          cases h3
        rcases l with _ | ⟨b, l'⟩
        · exact absurd rfl hlne
        · rw [List.getLast?_cons_cons]
          exact h3

theorem camelA_head_of_exists_alnum : ∀ (l : List Char) (acc : List Char),
    (∃ d ∈ l, isAlnumA d = true) →
    ∃ c, (camelA acc l).head? = some c ∧ isAlnumA c = true := by
  intro l
  induction l with
  | nil =>
    intro acc h
    obtain ⟨d, hd, _⟩ := h
    cases hd
  | cons a l ih =>
    intro acc h
    by_cases ha : isAlnumA a = true
    · refine ⟨if acc.isEmpty then a else Char.toUpper a, ?_, ?_⟩
      · simp only [camelA, ha, if_true]
        split_ifs <;> rfl
      · split_ifs
        · exact ha
        · rw [isAlnumA_toUpper]; exact ha
    · simp only [camelA, ha, Bool.false_eq_true, if_false]
      refine ih (a :: acc) ?_
      obtain ⟨d, hd, hda⟩ := h
      rcases List.mem_cons.mp hd with rfl | hm
      · exact absurd hda ha
      · exact ⟨d, hm, hda⟩

theorem camelA_trim_invariant (z : List Char)
    (h1 : ∀ c, z.head? = some c → isWsJS c = false)
    (h2 : ∀ c, z.getLast? = some c → isWsJS c = false) :
    trimList (camelA [] z) = camelA [] z := by
  apply trimList_eq_self
  · intro c hc
    by_cases hex : ∃ d ∈ z, isAlnumA d = true
    · obtain ⟨c', hc', ha⟩ := camelA_head_of_exists_alnum z [] hex
      rw [hc] at hc'
      cases hc'
      exact not_ws_of_alnum ha
    · push_neg at hex
      have hall : ∀ d ∈ z, isAlnumA d = false := by
        intro d hd
        exact Bool.eq_false_iff.mpr (hex d hd)
      rw [camelA_all_nonalnum [] hall, List.reverse_nil, List.nil_append] at hc
      rcases z with _ | ⟨r, rs⟩
      · cases hc
      · exact endRun_head_not_ws (h1 r rfl) h2 hc
  · intro c hc
    rcases camelA_getLast z [] c hc with ha | ⟨_, hh⟩ | hl
    · exact not_ws_of_alnum ha
    · cases hh
    · exact h2 c hl

/-! ## Claim C2 -/

/-- Claim C2, counterexample: header normalization is not idempotent.
`normalizeHeader "Payment Date" = "paymentDate"`, but normalizing
again lower-cases the camel hump, giving `"paymentdate"`. -/
theorem normalizeHeader_not_idempotent :
    normalizeHeader (normalizeHeader "Payment Date") ≠ normalizeHeader "Payment Date" := by
  decide

/-- Claim C2 (amended): a second application of header normalization
lower-cases the first one's output — `normalize (normalize h) =
toLowerCase (normalize h)` for every header string `h` — so
normalization is idempotent exactly on headers whose normalized form
contains no upper-case character. -/
theorem normalizeHeader_twice_eq_lower (h : String) :
    normalizeHeader (normalizeHeader h) = lowerStr (normalizeHeader h) := by
  have hz1 : ∀ c, (lowerList (trimList h.data)).head? = some c → isWsJS c = false := by
    intro c hc
    rw [lowerList, List.head?_map] at hc
    rcases hm : (trimList h.data).head? with _ | c₀
    · rw [hm] at hc; cases hc
    · rw [hm] at hc
      cases hc
      rw [isWsJS_toLower]
      exact trimList_head_not_ws hm
  have hz2 : ∀ c, (lowerList (trimList h.data)).getLast? = some c → isWsJS c = false := by
    intro c hc
    rw [lowerList, List.getLast?_map] at hc
    rcases hm : (trimList h.data).getLast? with _ | c₀
    · rw [hm] at hc; cases hc
    · rw [hm] at hc
      cases hc
      rw [isWsJS_toLower]
      exact trimList_getLast_not_ws hm
  unfold normalizeHeader lowerStr
  rw [show (String.mk (camelA [] (lowerList (trimList h.data)))).data
      = camelA [] (lowerList (trimList h.data)) from rfl]
  rw [camelA_trim_invariant _ hz1 hz2]
  exact congrArg String.mk
    (camelA_fixed (camelA_noSep (lowerList (trimList h.data)) [] (by intro a ha; cases ha)))

/-! ## Row-object lemmas -/

theorem lookupObj_cons (p : String × String) (r : CsvRow) (k : String) :
    lookupObj (p :: r) k = if p.1 = k then some p.2 else lookupObj r k := by
  unfold lookupObj
  by_cases hp : p.1 = k
  · rw [List.find?_cons_of_pos _ (by simp [hp]), if_pos hp]
    rfl
  · rw [List.find?_cons_of_neg _ (by simp [hp]), if_neg hp]

theorem lookupObj_map_set (k' v k : String) : ∀ r : CsvRow,
    lookupObj (r.map (fun p => if p.1 == k' then (k', v) else p)) k
      = if k' = k then (if hasKey r k' then some v else none) else lookupObj r k := by
  intro r
  induction r with
  | nil =>
    simp only [List.map_nil]
    split_ifs <;> simp [lookupObj, hasKey] at *
  | cons p r ih =>
    by_cases hp : p.1 = k'
    · simp only [List.map_cons, if_pos (show (p.1 == k') = true by simp [hp]), lookupObj_cons, ih]
      by_cases hk : k' = k
      · simp [hk, hasKey, hp]
      · have hpk : ¬ p.1 = k := by rw [hp]; exact hk
        simp [hk, hpk, lookupObj_cons]
    · simp only [List.map_cons, if_neg (show ¬ (p.1 == k') = true by simp [hp]), lookupObj_cons,
        ih]
      by_cases hpk : p.1 = k
      · have hk : ¬ k' = k := by
          intro he
          exact hp (by rw [hpk, he])
        simp [hpk, hk]
      · by_cases hk : k' = k
        · have hbe : (p.1 == k') = false := by simp [hp]
          simp [hpk, hk, hasKey, hbe]
          rw [hbe, Bool.false_or]
        · simp [hpk, hk]

theorem lookupObj_objSet (r : CsvRow) (k' v k : String) :
    lookupObj (objSet r k' v) k = if k' = k then some v else lookupObj r k := by
  unfold objSet
  split_ifs with hany hk hk
  · rw [lookupObj_map_set, if_pos hk]
    have : hasKey r k' = true := hany
    rw [this, if_pos rfl]
  · rw [lookupObj_map_set, if_neg hk]
  · subst hk
    unfold lookupObj
    rw [List.find?_append]
    have hnone : r.find? (fun p => p.1 == k') = none := by
      rw [List.find?_eq_none]
      intro x hx hpx
      exact hany (List.any_eq_true.mpr ⟨x, hx, hpx⟩)
    rw [hnone]
    simp [Option.or]
  · unfold lookupObj
    rw [List.find?_append]
    have h2 : List.find? (fun p => p.1 == k) [(k', v)] = none := by
      simp [hk]
    rw [h2]
    rcases hf : r.find? (fun p => p.1 == k) with _ | q
    · rw [hf]
      rfl
    · rw [hf]
      rfl

theorem hasKey_map_set (k' v k : String) : ∀ r : CsvRow,
    hasKey (r.map (fun p => if p.1 == k' then (k', v) else p)) k = hasKey r k := by
  intro r
  induction r with
  | nil => rfl
  | cons p r ih =>
    by_cases hp : p.1 = k'
    · simp only [List.map_cons, if_pos (show (p.1 == k') = true by simp [hp]), hasKey,
        List.any_cons] at ih ⊢
      rw [ih, hp]
    · simp only [List.map_cons, if_neg (show ¬ (p.1 == k') = true by simp [hp]), hasKey,
        List.any_cons] at ih ⊢
      rw [ih]

theorem hasKey_objSet (r : CsvRow) (k' v k : String) :
    hasKey (objSet r k' v) k = (hasKey r k || (k' == k)) := by
  unfold objSet
  split_ifs with hany
  · rw [hasKey_map_set]
    by_cases hk : k' = k
    · subst hk
      have : hasKey r k' = true := hany
      rw [this]
      simp
    · simp [hk]
  · simp only [hasKey, List.any_append, List.any_cons, List.any_nil]
    rw [Bool.or_false]

theorem hasKey_buildRecordAux (values : List (List Char)) (k : String) :
    ∀ (hs : List String) (i : Nat) (obj : CsvRow),
    hasKey (buildRecordAux values i hs obj) k = (hasKey obj k || hs.contains k) := by
  intro hs
  induction hs with
  | nil =>
    intro i obj
    simp [buildRecordAux]
  | cons h hs ih =>
    intro i obj
    simp only [buildRecordAux]
    rw [ih, hasKey_objSet]
    rw [Bool.eq_iff_iff]
    simp only [Bool.or_eq_true, List.contains_cons, beq_iff_eq]
    constructor
    · rintro ((h1 | h2) | h3)
      · exact Or.inl h1
      · exact Or.inr (Or.inl h2.symm)
      · exact Or.inr (Or.inr h3)
    · rintro (h1 | (h2 | h3))
      · exact Or.inl (Or.inl h1)
      · exact Or.inl (Or.inr h2.symm)
      · exact Or.inr h3

theorem hasKey_buildRecord (hs : List String) (vs : List (List Char)) (k : String) :
    hasKey (buildRecord hs vs) k = hs.contains k := by
  unfold buildRecord
  rw [hasKey_buildRecordAux]
  rfl

theorem lookupObj_buildRecordAux (values : List (List Char)) (k : String) :
    ∀ (hs : List String) (i : Nat) (obj : CsvRow),
    lookupObj (buildRecordAux values i hs obj) k
      = (lastWrite values i hs k).or (lookupObj obj k) := by
  intro hs
  induction hs with
  | nil =>
    intro i obj
    rfl
  | cons h hs ih =>
    intro i obj
    simp only [buildRecordAux, lastWrite]
    rw [ih]
    rcases lastWrite values (i + 1) hs k with _ | w
    · rw [lookupObj_objSet]
      by_cases hk : h = k
      · rw [if_pos hk, if_pos hk]
        rfl
      · rw [if_neg hk, if_neg hk]
    · rfl

theorem lookupObj_buildRecord (hs : List String) (vs : List (List Char)) (k : String) :
    lookupObj (buildRecord hs vs) k = lastWrite vs 0 hs k := by
  unfold buildRecord
  rw [lookupObj_buildRecordAux]
  rcases lastWrite vs 0 hs k with _ | w <;> rfl

/-! ## lastWrite and fieldValue lemmas -/

theorem fieldValue_oob {values : List (List Char)} {i : Nat} (h : values.length ≤ i) :
    fieldValue values i = "" := by
  unfold fieldValue
  rw [List.getElem?_eq_none h]

theorem fieldValue_no_quote (values : List (List Char)) (i : Nat) :
    ∀ c ∈ (fieldValue values i).data, c ≠ '"' := by
  intro c hc
  unfold fieldValue at hc
  rcases hv : values[i]? with _ | v
  · rw [hv] at hc
    cases hc
  · rw [hv] at hc
    have : c ∈ removeQuotes (trimList v) := hc
    unfold removeQuotes at this
    have := List.of_mem_filter this
    simpa using this

theorem lastWrite_some_fieldValue (values : List (List Char)) (k : String) :
    ∀ (hs : List String) (i : Nat) {v : String},
    lastWrite values i hs k = some v → ∃ j, v = fieldValue values j := by
  intro hs
  induction hs with
  | nil => intro i v h; cases h
  | cons h hs ih =>
    intro i v hw
    rcases hr : lastWrite values (i + 1) hs k with _ | w
    · simp only [lastWrite, hr] at hw
      by_cases hk : h = k
      · rw [if_pos hk] at hw
        cases hw
        exact ⟨i, rfl⟩
      · rw [if_neg hk] at hw
        cases hw
    · simp only [lastWrite, hr] at hw
      cases hw
      exact ih (i + 1) hr

theorem lastWrite_none_of_not_mem (values : List (List Char)) (k : String) :
    ∀ (hs : List String) (i : Nat), ¬ k ∈ hs → lastWrite values i hs k = none := by
  intro hs
  induction hs with
  | nil => intro i _; rfl
  | cons h hs ih =>
    intro i hmem
    have hk : ¬ h = k := fun he => hmem (he ▸ List.mem_cons_self h hs)
    simp only [lastWrite, ih (i + 1) (fun hm => hmem (List.mem_cons_of_mem h hm))]
    rw [if_neg hk]

theorem lastWrite_trailing_empty (values : List (List Char)) (k : String) :
    ∀ (hs : List String) (i : Nat), k ∈ hs →
    (∀ j, (hj : j < hs.length) → hs[j] = k → values.length ≤ i + j) →
    lastWrite values i hs k = some "" := by
  intro hs
  induction hs with
  | nil => intro i hmem _; cases hmem
  | cons h hs ih =>
    intro i hmem hidx
    by_cases hk : k ∈ hs
    · have hrec : lastWrite values (i + 1) hs k = some "" := by
        refine ih (i + 1) hk ?_
        intro j hj hje
        have := hidx (j + 1) (by simpa using Nat.succ_lt_succ hj) (by simpa using hje)
        omega
      simp only [lastWrite, hrec]
    · have hh : h = k := by
        rcases List.mem_cons.mp hmem with he | hm
        · exact he.symm
        · exact absurd hm hk
      have hrec : lastWrite values (i + 1) hs k = none :=
        lastWrite_none_of_not_mem values k hs (i + 1) hk
      simp only [lastWrite, hrec]
      rw [if_pos hh]
      have hlen : values.length ≤ i := by
        have := hidx 0 (by simp) (by simpa using hh)
        omega
      rw [fieldValue_oob hlen]

theorem fieldValue_take {values : List (List Char)} {n i : Nat} (h : i < n) :
    fieldValue (values.take n) i = fieldValue values i := by
  unfold fieldValue
  rw [List.getElem?_take_of_lt h]

theorem buildRecordAux_take (values : List (List Char)) (n : Nat) :
    ∀ (hs : List String) (i : Nat) (obj : CsvRow), i + hs.length ≤ n →
    buildRecordAux (values.take n) i hs obj = buildRecordAux values i hs obj := by
  intro hs
  induction hs with
  | nil => intro i obj _; rfl
  | cons h hs ih =>
    intro i obj hle
    simp only [List.length_cons] at hle
    simp only [buildRecordAux]
    rw [fieldValue_take (by omega), ih (i + 1) _ (by omega)]

/-! ## Parse-shape lemmas -/

theorem parseRecords_ok_shape {t : String} {d : List CsvRow} (h : parseRecords t = .ok d) :
    ∃ l0 l1 rest, splitOnChar '\n' (trimList t.data) = l0 :: l1 :: rest ∧
      d = (l1 :: rest).map (fun line => buildRecord (parseHeaders l0) (splitFields line)) := by
  unfold parseRecords at h
  rcases hs : splitOnChar '\n' (trimList t.data) with _ | ⟨l0, ls⟩
  · rw [hs] at h
    cases h
  · rcases ls with _ | ⟨l1, rest⟩
    · rw [hs] at h
      cases h
    · rw [hs] at h
      simp only [List.map_cons] at h
      cases h
      exact ⟨l0, l1, rest, rfl, by simp⟩

theorem parseRecords_of_lines {t : String} {l0 l1 : List Char} {rest : List (List Char)}
    (hs : splitOnChar '\n' (trimList t.data) = l0 :: l1 :: rest) :
    parseRecords t =
      .ok ((l1 :: rest).map (fun line => buildRecord (parseHeaders l0) (splitFields line))) := by
  unfold parseRecords
  rw [hs]
  simp only [List.map_cons]

theorem parseRecords_error_cases {t : String} {e : ParseError}
    (h : parseRecords t = .error e) : e = .emptyInput := by
  unfold parseRecords at h
  rcases hs : splitOnChar '\n' (trimList t.data) with _ | ⟨l0, ls⟩
  · rw [hs] at h
    cases h
    rfl
  · rcases ls with _ | ⟨l1, rest⟩
    · rw [hs] at h
      cases h
      rfl
    · rw [hs] at h
      simp only [List.map_cons] at h
      cases h

theorem parseRecords_ok_ne_nil {t : String} {d : List CsvRow}
    (h : parseRecords t = .ok d) : d ≠ [] := by
  obtain ⟨l0, l1, rest, _, rfl⟩ := parseRecords_ok_shape h
  simp

theorem parseAndValidate_of_parseRecords_error {t : String} {e : ParseError}
    (h : parseRecords t = .error e) : parseAndValidateCsv t = .error e := by
  unfold parseAndValidateCsv
  rw [h]

theorem parse_short_lines {t : String}
    (h : (splitOnChar '\n' (trimList t.data)).length < 2) :
    parseAndValidateCsv t = .error .emptyInput := by
  apply parseAndValidate_of_parseRecords_error
  unfold parseRecords
  rcases hs : splitOnChar '\n' (trimList t.data) with _ | ⟨l0, ls⟩
  · rfl
  · rcases ls with _ | ⟨l1, rest⟩
    · rfl
    · rw [hs] at h
      simp at h
      omega

theorem parse_data_congr {t₁ t₂ : String} (h : trimList t₁.data = trimList t₂.data) :
    parseAndValidateCsv t₁ = parseAndValidateCsv t₂ := by
  unfold parseAndValidateCsv parseRecords
  rw [h]

/-! ## Claim C4 -/

/-- Claim C4: the field splitter treats a comma as a separator only when it
is not enclosed in quotes on that line: parsing header `name,amount`
with data row `"Doe, Jane",100` yields exactly one record mapping
`name` to `Doe, Jane` and `amount` to `100`. -/
theorem quoted_delimiter_preserved :
    parseRecords "name,amount\n\"Doe, Jane\",100" =
      .ok [[("name", "Doe, Jane"), ("amount", "100")]] := by
  decide

/-! ## Claim C6 -/

/-- Claim C6, counterexample: an input whose line split yields zero data
records (a lone header line, `lines.slice(1)` empty) fails with
`EmptyInputError`, not `EmptyResultError`. -/
theorem emptyResult_unreachable_cex :
    (splitOnChar '\n' (trimList "name,amount".data)).drop 1 = [] ∧
    parseAndValidateCsv "name,amount" = .error .emptyInput ∧
    ParseError.emptyInput ≠ ParseError.emptyResult := by
  decide

/-- Claim C6 (amended): every input with fewer than two lines after
trimming fails with `EmptyInputError`; whenever at least two lines
exist, the parsing phase produces one record per data line (at least
one), so the `EmptyResultError` branch is unreachable and
`EmptyInputError` is the parser's only reachable failure mode; the two
errors are distinct. -/
theorem parse_failure_modes (t : String) :
    ((splitOnChar '\n' (trimList t.data)).length < 2 →
        parseAndValidateCsv t = .error .emptyInput)
    ∧ (2 ≤ (splitOnChar '\n' (trimList t.data)).length →
        ∃ d, parseRecords t = .ok d ∧
          d.length = (splitOnChar '\n' (trimList t.data)).length - 1 ∧ 1 ≤ d.length)
    ∧ parseAndValidateCsv t ≠ .error .emptyResult
    ∧ ParseError.emptyInput ≠ ParseError.emptyResult := by
  refine ⟨fun h => parse_short_lines h, ?_, ?_, by intro h; cases h⟩
  · intro h2
    rcases hs : splitOnChar '\n' (trimList t.data) with _ | ⟨l0, ls⟩
    · rw [hs] at h2
      simp at h2
    · rcases ls with _ | ⟨l1, rest⟩
      · rw [hs] at h2
        simp at h2
      · refine ⟨_, parseRecords_of_lines hs, ?_, ?_⟩
        · simp
        · simp
  · intro hcon
    rcases hp : parseRecords t with e | d
    · rw [parseAndValidate_of_parseRecords_error hp] at hcon
      cases hcon
      have := parseRecords_error_cases hp
      cases this
    · rcases d with _ | ⟨first, more⟩
      · exact absurd rfl (parseRecords_ok_ne_nil hp)
      · have hval : parseAndValidateCsv t =
            if (requiredColumns.filter (fun col => !(hasKey first col))).isEmpty then
              .ok (first :: more)
            else
              .error (.missingColumns
                (requiredColumns.filter (fun col => !(hasKey first col)))) := by
          unfold parseAndValidateCsv
          rw [hp]
        rw [hval] at hcon
        split_ifs at hcon
        cases hcon

/-- Claim C6, witness: the amended theorem applied to a one-line input and a
two-line input. -/
theorem parse_failure_modes_witness :
    parseAndValidateCsv "name" = .error .emptyInput ∧
    ∃ d, parseRecords "a\nb" = .ok d ∧
      d.length = (splitOnChar '\n' (trimList "a\nb".data)).length - 1 ∧ 1 ≤ d.length :=
  ⟨(parse_failure_modes "name").1 (by decide), (parse_failure_modes "a\nb").2.1 (by decide)⟩

/-! ## Claim C7 -/

/-- Claim C7, counterexample: quote characters interior to a field are not
preserved.  For the field `"a""b",1` the value stored under `name` is
`ab` — every quote character was removed — while stripping only the
surrounding quotes would have produced `a""b`. -/
theorem interior_quotes_removed_cex :
    parseRecords "name,amount\n\"a\"\"b\",1" = .ok [[("name", "ab"), ("amount", "1")]] ∧
    ("ab" : String) ≠ "a\"\"b" := by
  decide

/-- Claim C7 (amended): each parsed field is trimmed and then has all of its
quote characters removed, surrounding and interior alike, so no value
of any record produced by the parser contains a quote character. -/
theorem field_values_quote_free (t : String) (d : List CsvRow)
    (h : parseRecords t = .ok d) :
    ∀ r ∈ d, ∀ k v, lookupObj r k = some v → ∀ c ∈ v.data, c ≠ '"' := by
  obtain ⟨l0, l1, rest, hs, rfl⟩ := parseRecords_ok_shape h
  intro r hr k v hv c hc
  obtain ⟨line, hline, rfl⟩ := List.mem_map.mp hr
  rw [lookupObj_buildRecord] at hv
  obtain ⟨j, rfl⟩ := lastWrite_some_fieldValue _ _ _ _ hv
  exact fieldValue_no_quote _ _ c hc

/-- Claim C7, witness: the amended theorem applied to both characters of
the value parsed from the field `"a""b"`. -/
theorem field_values_quote_free_witness : ('a' : Char) ≠ '"' ∧ ('b' : Char) ≠ '"' :=
  ⟨field_values_quote_free "name,amount\n\"a\"\"b\",1" [[("name", "ab"), ("amount", "1")]]
      (by decide) [("name", "ab"), ("amount", "1")] (by decide) "name" "ab" (by decide)
      'a' (by decide),
    field_values_quote_free "name,amount\n\"a\"\"b\",1" [[("name", "ab"), ("amount", "1")]]
      (by decide) [("name", "ab"), ("amount", "1")] (by decide) "name" "ab" (by decide)
      'b' (by decide)⟩

/-! ## Claim C9 -/

/-- Claim C9: every record produced by the parser is built by zipping the
normalized headers with the line's fields; its key set is exactly the
header set; fields beyond the header count are dropped (the record is
unchanged if the value list is truncated to the header count); and a
key all of whose header positions lie beyond the value count gets the
empty string. -/
theorem record_keys_eq_headers (t : String) (d : List CsvRow) (h : parseRecords t = .ok d) :
    (∃ l0 l1 rest, splitOnChar '\n' (trimList t.data) = l0 :: l1 :: rest ∧
        d = (l1 :: rest).map (fun line => buildRecord (parseHeaders l0) (splitFields line)))
    ∧ (∀ (hs : List String) (vs : List (List Char)) (k : String),
        hasKey (buildRecord hs vs) k = hs.contains k)
    ∧ (∀ (hs : List String) (vs : List (List Char)),
        buildRecord hs (vs.take hs.length) = buildRecord hs vs)
    ∧ (∀ (hs : List String) (vs : List (List Char)) (k : String), k ∈ hs →
        (∀ j, (hj : j < hs.length) → hs[j] = k → vs.length ≤ j) →
        lookupObj (buildRecord hs vs) k = some "") := by
  refine ⟨parseRecords_ok_shape h, hasKey_buildRecord, ?_, ?_⟩
  · intro hs vs
    unfold buildRecord
    exact buildRecordAux_take vs hs.length hs 0 [] (by omega)
  · intro hs vs k hmem hidx
    rw [lookupObj_buildRecord]
    exact lastWrite_trailing_empty vs k hs 0 hmem (fun j hj hje => by
      have := hidx j hj hje
      omega)

/-- Claim C9, witness: the theorem applied to a two-header line with a
single-field data row; the missing trailing key `amount` is present
with the empty string. -/
theorem record_keys_eq_headers_witness :
    (∃ l0 l1 rest,
        splitOnChar '\n' (trimList ("name,amount\nx" : String).data) = l0 :: l1 :: rest ∧
        [[("name", "x"), ("amount", "")]] =
          (l1 :: rest).map (fun line => buildRecord (parseHeaders l0) (splitFields line)))
    ∧ (∀ (hs : List String) (vs : List (List Char)) (k : String),
        hasKey (buildRecord hs vs) k = hs.contains k)
    ∧ (∀ (hs : List String) (vs : List (List Char)),
        buildRecord hs (vs.take hs.length) = buildRecord hs vs)
    ∧ (∀ (hs : List String) (vs : List (List Char)) (k : String), k ∈ hs →
        (∀ j, (hj : j < hs.length) → hs[j] = k → vs.length ≤ j) →
        lookupObj (buildRecord hs vs) k = some "") :=
  record_keys_eq_headers "name,amount\nx" [[("name", "x"), ("amount", "")]] (by decide)

/-! ## Claim C10 -/

/-- Claim C10: the raw text is trimmed before the line split, so an input of
nothing but whitespace (newlines included) fails as empty input, and a
trailing newline never adds an extra empty record — it does not change
the outcome at all. -/
theorem trim_before_split (t : String) :
    ((∀ c ∈ t.data, isWsJS c = true) → parseAndValidateCsv t = .error .emptyInput)
    ∧ parseAndValidateCsv (t ++ "\n") = parseAndValidateCsv t := by
  constructor
  · intro hws
    apply parse_short_lines
    rw [trimList_nil_of_all_ws hws]
    decide
  · apply parse_data_congr
    rw [String.data_append]
    exact trimList_append_ws (by decide)

/-- Claim C10, witness: whitespace-only input fails as empty input, and a
trailing newline after a data row changes nothing. -/
theorem trim_before_split_witness :
    parseAndValidateCsv "\n \n" = .error .emptyInput ∧
    parseAndValidateCsv ("a\nb" ++ "\n") = parseAndValidateCsv "a\nb" :=
  ⟨(trim_before_split "\n \n").1 (by decide), (trim_before_split "a\nb").2⟩

/-! ## Claim C5 -/

/-- Claim C5: schema validation looks only at the first parsed record, and
presence is decided by key existence alone — the first record's key
set is exactly the normalized header set, values (empty or not) play
no role — so the computed missing-column list is a function of the
headers; when it is non-empty the run fails with `MissingColumnsError`
naming every missing required key and produces no records, and when it
is empty the full record list is accepted. -/
theorem schema_checks_first_record (t : String) (l0 l1 : List Char) (rest : List (List Char))
    (hl : splitOnChar '\n' (trimList t.data) = l0 :: l1 :: rest) :
    (requiredColumns.filter
        (fun col => !(hasKey (buildRecord (parseHeaders l0) (splitFields l1)) col))
      = requiredColumns.filter (fun col => !((parseHeaders l0).contains col)))
    ∧ (requiredColumns.filter (fun col => !((parseHeaders l0).contains col)) ≠ [] →
        parseAndValidateCsv t = .error (.missingColumns
          (requiredColumns.filter (fun col => !((parseHeaders l0).contains col)))))
    ∧ (requiredColumns.filter (fun col => !((parseHeaders l0).contains col)) = [] →
        parseAndValidateCsv t = .ok
          ((l1 :: rest).map (fun line => buildRecord (parseHeaders l0) (splitFields line)))) := by
  have hfc : requiredColumns.filter
        (fun col => !(hasKey (buildRecord (parseHeaders l0) (splitFields l1)) col))
      = requiredColumns.filter (fun col => !((parseHeaders l0).contains col)) := by
    apply List.filter_congr
    intro col _
    rw [hasKey_buildRecord]
  have hval : parseAndValidateCsv t =
      if (requiredColumns.filter (fun col => !((parseHeaders l0).contains col))).isEmpty then
        .ok ((l1 :: rest).map (fun line => buildRecord (parseHeaders l0) (splitFields line)))
      else
        .error (.missingColumns
          (requiredColumns.filter (fun col => !((parseHeaders l0).contains col)))) := by
    unfold parseAndValidateCsv
    rw [parseRecords_of_lines hl]
    simp only [List.map_cons]
    rw [hfc]
  refine ⟨hfc, ?_, ?_⟩
  · intro hne
    rw [hval, if_neg (by simpa [List.isEmpty_iff] using hne)]
  · intro heq
    rw [hval, if_pos (by rw [heq]; rfl)]

/-- Claim C5, witness: a sheet whose headers are only `name,amount` fails
naming exactly the four absent required keys. -/
theorem schema_checks_first_record_witness :
    parseAndValidateCsv "name,amount\nx,1" =
      .error (.missingColumns ["utr", "paymentDate", "campusName", "paymentScreenshotUrl"]) := by
  have h := (schema_checks_first_record "name,amount\nx,1" ("name,amount".data) ("x,1".data)
    [] (by decide)).2.1 (by decide)
  have he : requiredColumns.filter
        (fun col => !((parseHeaders ("name,amount".data)).contains col))
      = ["utr", "paymentDate", "campusName", "paymentScreenshotUrl"] := by decide
  rw [he] at h
  exact h

/-! ## Orchestrator lemmas -/

theorem runAux_cons_ok {proc : Nat → CsvRow → Except String ValidationResponse}
    {ts : Nat → String} {i : Nat} {row : CsvRow} {rest : List CsvRow}
    {v : ValidationResponse} (hp : proc i row = .ok v) :
    runAux proc ts i (row :: rest) =
      (⟨row, some v, none, ts i⟩ :: (runAux proc ts (i + 1) rest).1,
        (runAux proc ts (i + 1) rest).2) := by
  simp only [runAux, hp]

theorem runAux_cons_error_crit {proc : Nat → CsvRow → Except String ValidationResponse}
    {ts : Nat → String} {i : Nat} {row : CsvRow} {rest : List CsvRow}
    {e : String} (hp : proc i row = .error e)
    (hc : (i == 0 && includesStr critKey.data e.data) = true) :
    runAux proc ts i (row :: rest) =
      ([⟨row, none, some ("Processing stopped due to critical error: " ++ e), ts i⟩],
        true) := by
  simp only [runAux, hp, hc, if_true]

theorem runAux_cons_error_noncrit {proc : Nat → CsvRow → Except String ValidationResponse}
    {ts : Nat → String} {i : Nat} {row : CsvRow} {rest : List CsvRow}
    {e : String} (hp : proc i row = .error e)
    (hc : (i == 0 && includesStr critKey.data e.data) = false) :
    runAux proc ts i (row :: rest) =
      (⟨row, none, some e, ts i⟩ :: (runAux proc ts (i + 1) rest).1,
        (runAux proc ts (i + 1) rest).2) := by
  simp only [runAux, hp, hc, Bool.false_eq_true, if_false]

theorem runAux_no_abort (proc : Nat → CsvRow → Except String ValidationResponse)
    (ts : Nat → String) : ∀ (l : List CsvRow) (i : Nat),
    runAux proc ts (i + 1) l =
      ((l.enumFrom (i + 1)).map (fun p => processRecordOutcome proc ts p.1 p.2), false) := by
  intro l
  induction l with
  | nil => intro i; rfl
  | cons row l ih =>
    intro i
    rcases hp : proc (i + 1) row with e | v
    · rw [runAux_cons_error_noncrit hp (by simp), ih (i + 1)]
      simp [processRecordOutcome, hp]
    · rw [runAux_cons_ok hp, ih (i + 1)]
      simp [processRecordOutcome, hp]

theorem runAux_outcome_spec (proc : Nat → CsvRow → Except String ValidationResponse)
    (ts : Nat → String) : ∀ (l : List CsvRow) (i : Nat) (res : ProcessingResult),
    res ∈ (runAux proc ts i l).1 →
    ((res.validation.isSome = true ∧ res.error = none) ∨
      (res.validation = none ∧ res.error.isSome = true))
    ∧ res.originalData ∈ l ∧ ∃ j, i ≤ j ∧ j < i + l.length ∧ res.timestamp = ts j := by
  intro l
  induction l with
  | nil =>
    intro i res h
    cases h
  | cons row l ih =>
    intro i res h
    rcases hp : proc i row with e | v
    · by_cases hcrit : (i == 0 && includesStr critKey.data e.data) = true
      · rw [runAux_cons_error_crit hp hcrit] at h
        rcases List.mem_cons.mp h with rfl | hm
        · exact ⟨Or.inr ⟨rfl, rfl⟩, List.mem_cons_self row l,
            ⟨i, Nat.le_refl i, by simp, rfl⟩⟩
        · cases hm
      · rw [runAux_cons_error_noncrit hp (Bool.eq_false_iff.mpr hcrit)] at h
        rcases List.mem_cons.mp h with rfl | hm
        · exact ⟨Or.inr ⟨rfl, rfl⟩, List.mem_cons_self row l,
            ⟨i, Nat.le_refl i, by simp, rfl⟩⟩
        · obtain ⟨h1, h2, j, hj1, hj2, hj3⟩ := ih (i + 1) res hm
          refine ⟨h1, List.mem_cons_of_mem row h2, j, by omega, ?_, hj3⟩
          simp only [List.length_cons]
          omega
    · rw [runAux_cons_ok hp] at h
      rcases List.mem_cons.mp h with rfl | hm
      · exact ⟨Or.inl ⟨rfl, rfl⟩, List.mem_cons_self row l,
          ⟨i, Nat.le_refl i, by simp, rfl⟩⟩
      · obtain ⟨h1, h2, j, hj1, hj2, hj3⟩ := ih (i + 1) res hm
        refine ⟨h1, List.mem_cons_of_mem row h2, j, by omega, ?_, hj3⟩
        simp only [List.length_cons]
        omega

/-! ## Claim C1 -/

/-- Claim C1: if the very first record's processing fails with a message
containing `Invalid API Key`, the run aborts with exactly one outcome
— that failure annotated as run-stopping — independent of every later
record (none is attempted); if the first record does not fail
critically, no short-circuit happens regardless of later credential
failures: the run completes with exactly one outcome per record, each
determined by that record's own processing. -/
theorem orchestrator_short_circuit (proc : Nat → CsvRow → Except String ValidationResponse)
    (ts : Nat → String) (r0 : CsvRow) (rest : List CsvRow) :
    (∀ e, proc 0 r0 = .error e → includesStr critKey.data e.data = true →
      runPipeline proc ts (r0 :: rest) =
        ([⟨r0, none, some ("Processing stopped due to critical error: " ++ e), ts 0⟩], true))
    ∧ ((∀ e, proc 0 r0 = .error e → includesStr critKey.data e.data = false) →
      runPipeline proc ts (r0 :: rest) =
        (((r0 :: rest).enum).map (fun p => processRecordOutcome proc ts p.1 p.2), false)) := by
  constructor
  · intro e he hcrit
    unfold runPipeline
    rw [if_neg (by simp), runAux_cons_error_crit he (by simp [hcrit])]
  · intro hnc
    unfold runPipeline
    rw [if_neg (by simp)]
    rcases hp : proc 0 r0 with e | v
    · have hc : includesStr critKey.data e.data = false := hnc e hp
      rw [runAux_cons_error_noncrit hp (by simp [hc]), runAux_no_abort proc ts rest 0]
      simp [List.enum, processRecordOutcome, hp]
    · rw [runAux_cons_ok hp, runAux_no_abort proc ts rest 0]
      simp [List.enum, processRecordOutcome, hp]

/-- Claim C1, witness: with three rows and an oracle failing critically on
record 0 the run aborts with the single annotated outcome; with the
critical failure on record 1 instead, all three outcomes are
produced. -/
theorem orchestrator_short_circuit_witness :
    runPipeline procCrit tsFix [rowA, rowB, rowC] =
      ([⟨rowA, none,
          some ("Processing stopped due to critical error: " ++ "Invalid API Key provided"),
          tsFix 0⟩], true)
    ∧ runPipeline procLater tsFix [rowA, rowB, rowC] =
      ((([rowA, rowB, rowC].enum).map
          (fun p => processRecordOutcome procLater tsFix p.1 p.2)), false) :=
  ⟨(orchestrator_short_circuit procCrit tsFix rowA [rowB, rowC]).1
      "Invalid API Key provided" (by decide) (by decide),
    (orchestrator_short_circuit procLater tsFix rowA [rowB, rowC]).2
      (by intro e he; simp [procLater] at he)⟩

/-! ## Claim C8 -/

/-- Claim C8: every outcome in the published list has exactly one of
{verdict, error} populated — never both, never neither — together with
an originating row from the input and a timestamp captured at its
index, on the success path, every failure path, and the critical
short-circuit. -/
theorem outcome_exactly_one (proc : Nat → CsvRow → Except String ValidationResponse)
    (ts : Nat → String) (rows : List CsvRow) (res : ProcessingResult)
    (h : res ∈ (runPipeline proc ts rows).1) :
    ((res.validation.isSome = true ∧ res.error = none) ∨
      (res.validation = none ∧ res.error.isSome = true))
    ∧ res.originalData ∈ rows ∧ ∃ j, j < rows.length ∧ res.timestamp = ts j := by
  unfold runPipeline at h
  split_ifs at h with hrow
  · cases h
  · obtain ⟨h1, h2, j, _, hj2, hj3⟩ := runAux_outcome_spec proc ts rows 0 res h
    exact ⟨h1, h2, j, by omega, hj3⟩

/-- Claim C8, witness: the first outcome of a three-row run. -/
theorem outcome_exactly_one_witness :
    ((resW.validation.isSome = true ∧ resW.error = none) ∨
      (resW.validation = none ∧ resW.error.isSome = true))
    ∧ resW.originalData ∈ [rowA, rowB, rowC] ∧
      ∃ j, j < [rowA, rowB, rowC].length ∧ resW.timestamp = tsFix j :=
  outcome_exactly_one procLater tsFix [rowA, rowB, rowC] resW (by decide)

/-! ## Claim C3 -/

/-- Claim C3, code bug: an error-free outcome carrying the `Validation_Status`
string declared in src/types.ts for the 'Not Readable' verdict
(with a real en-dash) is counted in no bucket at all — `chartData`
over one such outcome is empty, because the switch case at line 236 of
src/App.tsx compares against a mojibake-corrupted copy of that string
(U+00E2, U+20AC, U+201C in place of the en-dash), which can never
match the declared status value.  The claim (and the type declaration)
say such an outcome belongs to the Needs-Review bucket. -/
theorem review_status_uncounted :
    reviewOutcome.error = none ∧
    reviewOutcome.validation = some reviewVR ∧
    reviewVR.Validation_Status = "Not Readable – Human Review Required" ∧
    chartData [reviewOutcome] = [] ∧
    reviewStatusTyped ≠ "Not Readable â€“ Human Review Required" := by
  decide

end FeeReceipt
